import Mathlib

/-!
# Path tree of observed request targets (`backend/workspace/tree.go`)

A shallow embedding of `StructureNode`, `StructureNode.Update`, `Tree` and
`Tree.Structure`, followed by the properties of incremental insertion.

The Go method `(*StructureNode).Update` mutates its receiver; here it is a
function returning the receiver's new value.  A Go slice of nodes is a `List`
(`range`, `len` and `append` do not distinguish a nil slice from an empty one).
A Go `string` is a `String`: `Update` only compares strings for equality.
-/

namespace Workspace

/-! ## Data model -/

/-- Go: `type StructureNode struct { Name string; Children []StructureNode }`. -/
inductive StructureNode where
  | mk (Name : String) (Children : List StructureNode) : StructureNode

namespace StructureNode

/-- Field `Name`. -/
def Name : StructureNode → String
  | mk n _ => n

/-- Field `Children`. -/
def Children : StructureNode → List StructureNode
  | mk _ cs => cs

end StructureNode

mutual
/-- Decidable equality of nodes. -/
def StructureNode.decEq : (a b : StructureNode) → Decidable (a = b)
  | .mk n cs, .mk m ds =>
    if hn : n = m then
      match StructureNode.decEqList cs ds with
      | isTrue hc => isTrue (by rw [hn, hc])
      | isFalse hc => isFalse (by intro h; injection h with _ h2; exact hc h2)
    else isFalse (by intro h; injection h with h1 _; exact hn h1)
/-- Decidable equality of slices of nodes. -/
def StructureNode.decEqList : (as bs : List StructureNode) → Decidable (as = bs)
  | [], [] => isTrue rfl
  | [], _ :: _ => isFalse (by intro h; cases h)
  | _ :: _, [] => isFalse (by intro h; cases h)
  | a :: as, b :: bs =>
    match StructureNode.decEq a b with
    | isTrue h1 =>
      match StructureNode.decEqList as bs with
      | isTrue h2 => isTrue (by rw [h1, h2])
      | isFalse h2 => isFalse (by intro h; injection h with _ h4; exact h2 h4)
    | isFalse h1 => isFalse (by intro h; injection h with h3 _; exact h1 h3)
end

instance : DecidableEq StructureNode := StructureNode.decEq

/-- Go: `type Tree struct { root StructureNode }`. -/
structure Tree where
  root : StructureNode

/-- The zero value of `Tree`: a root with the empty name and no children. -/
def Tree.empty : Tree := ⟨StructureNode.mk "" []⟩

/-- Go: `func (t *Tree) Structure() []StructureNode { return t.root.Children }`. -/
def Tree.Structure (t : Tree) : List StructureNode := t.root.Children

/-! ## Insertion -/

/-- The filtering loop of `Update` (lines 31-36):
`for _, part := range parts { if part != "" { filtered = append(filtered, part) } }`. -/
def filterParts (parts : List String) : List String :=
  parts.foldl (fun filtered part => if part ≠ "" then filtered ++ [part] else filtered) []

/-- The scan of `Update` (lines 40-45) over a slice of children:
`for i, node := range t.Children { if node.Name == filtered[0] { t.Children[i].Update(filtered[1:]); return } }`.
The argument `upd` is the recursive call `Update(filtered[1:])`.  The result is
`some` of the slice after the in-place update of the first matching child (the
`return` inside the loop), or `none` when the loop ends without a match. -/
def updateFirst (upd : StructureNode → StructureNode) (seg : String) :
    List StructureNode → Option (List StructureNode)
  | [] => none
  | node :: rest =>
    if node.Name = seg then some (upd node :: rest)
    else (updateFirst upd seg rest).map (fun rest' => node :: rest')

/-- Go: `func (t *StructureNode) Update(parts []string)` (lines 30-51), as a
function from the receiver before the call to the receiver after it. -/
def StructureNode.Update (t : StructureNode) (parts : List String) : StructureNode :=
  match h : filterParts parts with
  | [] => t
  | seg :: rest =>
    match updateFirst (fun node => node.Update rest) seg t.Children with
    | some children => StructureNode.mk t.Name children
    | none =>
      StructureNode.mk t.Name (t.Children ++ [(StructureNode.mk seg []).Update rest])
termination_by parts.length
decreasing_by
  all_goals
    have hlen : ∀ (ps acc : List String),
        (ps.foldl (fun filtered part => if part ≠ "" then filtered ++ [part] else filtered)
          acc).length ≤ acc.length + ps.length := by
      intro ps
      induction ps with
      | nil => intro acc; simp
      | cons p ps ih =>
        intro acc
        rw [List.foldl_cons]
        refine le_trans (ih _) ?_
        split
        · simp; omega
        · simp
    have hle := hlen parts []
    unfold filterParts at h
    rw [h] at hle
    simp only [List.length_cons, List.length_nil] at hle
    omega

/-- Insertion of an already filtered sequence, by recursion on the sequence:
the body of `Update` after the filtering loop.  `Update_eq_insertSegs` shows
that `Update parts` is `insertSegs` of the filtered `parts`. -/
def insertSegs : List String → StructureNode → StructureNode
  | [], t => t
  | seg :: rest, t =>
    match updateFirst (insertSegs rest) seg t.Children with
    | some children => StructureNode.mk t.Name children
    | none => StructureNode.mk t.Name (t.Children ++ [insertSegs rest (StructureNode.mk seg [])])

/-- The call `t.root.Update(parts)` that `Tree.Update` makes (line 14), for an
arbitrary sequence `parts`. -/
def Tree.updateRoot (t : Tree) (parts : List String) : Tree := ⟨t.root.Update parts⟩

/-- The tree built from an empty `Tree` by the root `Update` calls of a history,
oldest first. -/
def Tree.build (history : List (List String)) : Tree :=
  history.foldl Tree.updateRoot Tree.empty

/-- What `Tree.Update` reads of its `*http.Request`: the result of
`request.URL.Hostname()` and the field `request.URL.Path`. -/
structure Request where
  Hostname : String
  Path : String

/-- Go library `strings.Split(s, "/")`, on the characters of `s`: the pieces
of `s` between the slashes, in order, empty pieces included; a string of `n`
slashes has `n + 1` pieces (one piece, the string itself, when there is no
slash). -/
def splitSlash : List Char → List (List Char)
  | [] => [[]]
  | c :: cs =>
    if c = '/' then [] :: splitSlash cs
    else
      match splitSlash cs with
      | [] => [[c]]
      | piece :: pieces => (c :: piece) :: pieces

/-- Go: `strings.Split(s, "/")`. -/
def Split (s : String) : List String := (splitSlash s.data).map String.mk

/-- Go: `func (t *Tree) Update(request *http.Request)` (lines 13-19):
`t.root.Update(append([]string{request.URL.Hostname()}, strings.Split(request.URL.Path, "/")...))`. -/
def Tree.Update (t : Tree) (request : Request) : Tree :=
  ⟨t.root.Update ([request.Hostname] ++ Split request.Path)⟩

/-! ## Insertion with checked accesses -/

/-- The ways a checked run of `Update` can fail: a slice access out of range
(a Go run-time panic), or the recursion budget of the model used up. -/
inductive Fault where
  | indexOutOfRange
  | outOfFuel
  deriving DecidableEq

/-- Go: `s[i]`, which panics unless `i < len(s)`. -/
def indexAt {α : Type} (s : List α) (i : Nat) : Except Fault α :=
  match s[i]? with
  | some a => .ok a
  | none => .error .indexOutOfRange

/-- Go: `s[1:]`, which panics unless `1 <= len(s)`. -/
def sliceFrom1 {α : Type} (s : List α) : Except Fault (List α) :=
  if 1 ≤ s.length then .ok (s.drop 1) else .error .indexOutOfRange

/-- The scan of `Update` (lines 40-45) with every access checked.  `todo` is
what `range t.Children` still has to deliver and `i` the index of its head; the
accesses are `filtered[0]` at each comparison and, on a match, `filtered[1:]`
and `t.Children[i]`.  The result `none` means the loop ended without a match. -/
def scanChecked (upd : StructureNode → List String → Except Fault StructureNode)
    (filtered : List String) (children : List StructureNode) :
    Nat → List StructureNode → Except Fault (Option (List StructureNode))
  | _, [] => .ok none
  | i, node :: todo =>
    (indexAt filtered 0).bind fun seg =>
      if node.Name = seg then
        (sliceFrom1 filtered).bind fun rest =>
          (indexAt children i).bind fun child =>
            (upd child rest).bind fun updated => .ok (some (children.set i updated))
      else scanChecked upd filtered children (i + 1) todo

/-- The method `Update` (lines 30-51) with every slice access checked and the
depth of the recursion bounded by `fuel`. -/
def UpdateChecked : Nat → StructureNode → List String → Except Fault StructureNode
  | 0, _, _ => .error .outOfFuel
  | fuel + 1, t, parts =>
    if (filterParts parts).length = 0 then .ok t
    else
      (scanChecked (UpdateChecked fuel) (filterParts parts) t.Children 0 t.Children).bind
        fun found =>
          match found with
          | some children => .ok (StructureNode.mk t.Name children)
          | none =>
            (indexAt (filterParts parts) 0).bind fun seg =>
              (sliceFrom1 (filterParts parts)).bind fun rest =>
                (UpdateChecked fuel (StructureNode.mk seg []) rest).bind fun hostNode =>
                  .ok (StructureNode.mk t.Name (t.Children ++ [hostNode]))

/-! ## Serialization -/

/-- A JSON value, as the tree that the bytes written by `encoding/json` denote;
the fields of an object are listed in the order they are written. -/
inductive JSON where
  | null : JSON
  | str (s : String) : JSON
  | arr (elems : List JSON) : JSON
  | obj (fields : List (String × JSON)) : JSON

/-- A `StructureNode` value as Go holds it: the `Children` slice is nil (`none`)
or not (`some`), the one thing about a node that `MarshalJSON` can tell apart
and `Update` cannot. -/
inductive StoredNode where
  | mk (Name : String) (Children : Option (List StoredNode)) : StoredNode

/-- Field `Name`. -/
def StoredNode.Name : StoredNode → String
  | .mk n _ => n

/-- Field `Children`. -/
def StoredNode.Children : StoredNode → Option (List StoredNode)
  | .mk _ cs => cs

/-- Lines 54-56 of `MarshalJSON`:
`if t.Children == nil { t.Children = []StructureNode{} }`. -/
def fixNil {α : Type} : Option (List α) → Option (List α)
  | none => some []
  | some l => some l

/-- The error result of `MarshalJSON`.  The one error `encoding/json` raises on
the values met here is `exceeded max depth`, from the check of the bytes that a
`MarshalJSON` method returned; the wrapping of that error on its way up is left
out. -/
inductive MarshalError where
  | exceededMaxDepth
  deriving DecidableEq

/-- Go library `encoding/json`, `scanner.go`: `const maxNestingDepth = 10000`. -/
def maxNestingDepth : Nat := 10000

mutual
/-- The nesting depth of a JSON text as the scanner of `encoding/json` counts
it: the largest number of objects and arrays open at once. -/
def JSON.depth : JSON → Nat
  | .null => 0
  | .str _ => 0
  | .arr elems => 1 + depthElems elems
  | .obj fields => 1 + depthFields fields
/-- The largest depth among the elements of an array. -/
def depthElems : List JSON → Nat
  | [] => 0
  | j :: l => max j.depth (depthElems l)
/-- The largest depth among the values of the fields of an object. -/
def depthFields : List (String × JSON) → Nat
  | [] => 0
  | (_, j) :: l => max j.depth (depthFields l)
end

/-- Go library `encoding/json`: the check (`compact`) that the encoder runs
over the bytes a `MarshalJSON` method returned.  Its scanner fails with
`exceeded max depth` when more than `maxNestingDepth` objects and arrays are
open at once; valid bytes within the limit pass unchanged. -/
def compact (j : JSON) : Except MarshalError JSON :=
  if j.depth ≤ maxNestingDepth then .ok j else .error .exceededMaxDepth

mutual
/-- Go: `func (t *StructureNode) MarshalJSON() ([]byte, error)` (lines 53-61):
after `fixNil`, `json.Marshal` of the map with the keys `"Name"` and
`"Children"`.  Go library `encoding/json` writes the keys of a map in sorted
order and a string as a JSON string; an error met while encoding the children
is the error result. -/
def StoredNode.MarshalJSON (t : StoredNode) : Except MarshalError JSON :=
  (marshalSlice (fixNil t.Children)).bind fun children =>
    .ok (JSON.obj [("Children", children), ("Name", JSON.str t.Name)])
termination_by sizeOf t
decreasing_by
  cases t with
  | mk name children =>
    cases children with
    | none =>
      cases name
      simp [fixNil, StoredNode.Children]
      omega
    | some l => simp [fixNil, StoredNode.Children]
/-- Go library `json.Marshal` of a `[]StructureNode`: `null` for a nil slice,
else the array of the encodings of the elements. -/
def marshalSlice : Option (List StoredNode) → Except MarshalError JSON
  | none => .ok JSON.null
  | some l => (marshalElems l).bind fun elems => .ok (JSON.arr elems)
termination_by s => sizeOf s
decreasing_by simp
/-- The encodings of the elements of a slice, first to last: an element of a
slice is addressable, so `encoding/json` calls the pointer method `MarshalJSON`
on it and passes the bytes returned through `compact`; the first error ends the
encoding. -/
def marshalElems : List StoredNode → Except MarshalError (List JSON)
  | [] => .ok []
  | n :: l =>
    n.MarshalJSON.bind fun bytes =>
      (compact bytes).bind fun out =>
        (marshalElems l).bind fun outs => .ok (out :: outs)
termination_by l => sizeOf l
decreasing_by
  all_goals simp
  all_goals omega
end

mutual
/-- The node a stored node stands for, a nil slice and an empty slice both
being the empty list of children. -/
def StoredNode.content : StoredNode → StructureNode
  | .mk name children => StructureNode.mk name (contentSlice children)
/-- The children a stored slice stands for. -/
def contentSlice : Option (List StoredNode) → List StructureNode
  | none => []
  | some l => contentList l
/-- The nodes the elements of a stored slice stand for. -/
def contentList : List StoredNode → List StructureNode
  | [] => []
  | n :: l => n.content :: contentList l
end

mutual
/-- The serialization contract in the spec's words: a node is an object with
exactly the two fields `Name` (a string) and `Children` (an array of nodes of
the same shape, empty for a node without children). -/
def specSerialize : StructureNode → JSON
  | .mk name children =>
    JSON.obj [("Children", JSON.arr (specSerializeList children)), ("Name", JSON.str name)]
/-- The serializations of the nodes of a list, in order. -/
def specSerializeList : List StructureNode → List JSON
  | [] => []
  | n :: l => specSerialize n :: specSerializeList l
end

mutual
/-- The number of levels of a tree: `1` for a node without children. -/
def StructureNode.height : StructureNode → Nat
  | .mk _ children => 1 + heightList children
/-- The number of levels of the tallest tree of a list, `0` for the empty
list. -/
def heightList : List StructureNode → Nat
  | [] => 0
  | n :: l => max n.height (heightList l)
end

/-- A stored chain of `n + 1` nodes named `s`, the last with a nil `Children`
slice: what `Update` leaves below the root for a sequence of `n + 1` segments
`s`. -/
def deepChain : Nat → StoredNode
  | 0 => StoredNode.mk "s" none
  | n + 1 => StoredNode.mk "s" (some [deepChain n])

/-! ## Vocabulary of the properties -/

mutual
/-- All nodes strictly below a node: its children and their descendants, in
depth-first order. -/
def StructureNode.descendants : StructureNode → List StructureNode
  | .mk _ cs => descendantsList cs
/-- The nodes of a slice together with all their descendants. -/
def descendantsList : List StructureNode → List StructureNode
  | [] => []
  | c :: cs => c :: (c.descendants ++ descendantsList cs)
end

/-- The number of nodes below a node. -/
def StructureNode.countBelow (t : StructureNode) : Nat := t.descendants.length

/-- The names of the children of a node, in order. -/
def StructureNode.childNames (t : StructureNode) : List String :=
  t.Children.map StructureNode.Name

/-- Every node of the tree (the node itself and all descendants) has children
with pairwise distinct names. -/
def UniqueSiblings (t : StructureNode) : Prop :=
  ∀ n ∈ t :: t.descendants, n.childNames.Nodup

instance : DecidablePred UniqueSiblings := fun t => by
  unfold UniqueSiblings; infer_instance

/-- Walking a sequence of segments by child name from a node: at each step the
first child whose name equals the segment, as the scan of `Update` finds it. -/
def walk : StructureNode → List String → Option StructureNode
  | t, [] => some t
  | t, seg :: rest =>
    match t.Children.find? (fun c => decide (c.Name = seg)) with
    | none => none
    | some c => walk c rest

/-- The single chain `s1 -> s2 -> ... -> sk` as a slice of top-level nodes: one
node named `s1` whose only child is `s2`, down to `sk` without children. -/
def chain : List String → List StructureNode
  | [] => []
  | seg :: rest => [StructureNode.mk seg (chain rest)]

/-- A string made of whitespace characters only (the empty string included). -/
def whitespaceOnly (s : String) : Bool := s.data.all Char.isWhitespace

/-- A list of names without its later duplicates: the first occurrence of each
name is kept, in order. -/
def dedupFirst : List String → List String
  | [] => []
  | s :: l => s :: (dedupFirst l).filter (fun x => decide (x ≠ s))

/-- The first non-empty segment of each sequence of a history, skipping the
sequences without a non-empty segment. -/
def firstSegments (history : List (List String)) : List String :=
  history.filterMap (fun parts => (parts.filter (fun p => decide (p ≠ ""))).head?)

/-! ## Basic facts about the filtering loop and the recursion -/

theorem filterParts_aux (acc parts : List String) :
    parts.foldl (fun filtered part => if part ≠ "" then filtered ++ [part] else filtered) acc
      = acc ++ parts.filter (fun p => decide (p ≠ "")) := by
  induction parts generalizing acc with
  | nil => simp
  | cons p ps ih =>
    rw [List.foldl_cons, ih]
    by_cases hp : p = "" <;> simp [hp, List.filter_cons]

/-- The filtering loop keeps exactly the non-empty strings, in order. -/
theorem filterParts_eq_filter (parts : List String) :
    filterParts parts = parts.filter (fun p => decide (p ≠ "")) := by
  unfold filterParts
  rw [filterParts_aux]
  simp

theorem filterParts_tail_length_lt (parts : List String) (seg : String) (rest : List String)
    (h : filterParts parts = seg :: rest) : rest.length < parts.length := by
  have h1 : (filterParts parts).length ≤ parts.length := by
    rw [filterParts_eq_filter]
    exact List.length_filter_le _ _
  rw [h] at h1
  simp only [List.length_cons] at h1
  omega


theorem filter_tail_fixed (seg : String) (rest parts : List String)
    (h : parts.filter (fun p => decide (p ≠ "")) = seg :: rest) :
    rest.filter (fun p => decide (p ≠ "")) = rest := by
  have h2 : (seg :: rest).filter (fun p => decide (p ≠ "")) = seg :: rest := by
    rw [← h, List.filter_filter]; simp
  rw [List.filter_eq_self] at h2 ⊢
  intro a ha
  exact h2 a (List.mem_cons_of_mem _ ha)

/-- The call `Update parts` inserts the filtered sequence: re-filtering at each
level of the recursion changes nothing, the tail of a filtered sequence being
already filtered. -/
theorem Update_eq_insertSegs (parts : List String) (t : StructureNode) :
    t.Update parts = insertSegs (parts.filter (fun p => decide (p ≠ ""))) t := by
  generalize hn : parts.length = n
  induction n using Nat.strong_induction_on generalizing parts t with
  | _ n ih =>
    subst hn
    rw [StructureNode.Update]
    have hf := filterParts_eq_filter parts
    split
    · rename_i h0
      rw [← hf, h0]; rfl
    · rename_i seg rest h0
      have hlt := filterParts_tail_length_lt parts seg rest h0
      have hrest : rest.filter (fun p => decide (p ≠ "")) = rest :=
        filter_tail_fixed seg rest parts (by rw [← hf]; exact h0)
      have hupd : (fun node : StructureNode => node.Update rest) = insertSegs rest := by
        funext node
        rw [ih rest.length (by omega) rest node rfl, hrest]
      rw [← hf, h0, insertSegs, hupd]
      rw [ih rest.length (by omega) rest _ rfl, hrest]

/-! ## One step of insertion, case by case -/

@[simp] theorem Name_mk (n : String) (cs : List StructureNode) :
    (StructureNode.mk n cs).Name = n := rfl

@[simp] theorem Children_mk (n : String) (cs : List StructureNode) :
    (StructureNode.mk n cs).Children = cs := rfl

theorem mk_eta (t : StructureNode) : StructureNode.mk t.Name t.Children = t := by
  cases t; rfl

theorem updateFirst_eq_none (upd : StructureNode → StructureNode) (seg : String)
    (cs : List StructureNode) :
    updateFirst upd seg cs = none ↔ ∀ c ∈ cs, c.Name ≠ seg := by
  induction cs with
  | nil => simp [updateFirst]
  | cons c cs ih =>
    by_cases hc : c.Name = seg
    · simp [updateFirst, hc]
    · simp [updateFirst, hc, ih]

theorem updateFirst_of_split (upd : StructureNode → StructureNode) (seg : String)
    (pre : List StructureNode) (c : StructureNode) (post : List StructureNode)
    (hpre : ∀ x ∈ pre, x.Name ≠ seg) (hc : c.Name = seg) :
    updateFirst upd seg (pre ++ c :: post) = some (pre ++ upd c :: post) := by
  induction pre with
  | nil => simp [updateFirst, hc]
  | cons x pre ih =>
    have hx : x.Name ≠ seg := hpre x (List.mem_cons_self _ _)
    have ih2 := ih (fun y hy => hpre y (List.mem_cons_of_mem _ hy))
    simp [updateFirst, hx, ih2]

theorem exists_split_of_name (seg : String) (cs : List StructureNode)
    (h : ∃ c ∈ cs, c.Name = seg) :
    ∃ pre c post, cs = pre ++ c :: post ∧ (∀ x ∈ pre, x.Name ≠ seg) ∧ c.Name = seg := by
  induction cs with
  | nil => simp at h
  | cons d ds ih =>
    by_cases hd : d.Name = seg
    · exact ⟨[], d, ds, rfl, by simp, hd⟩
    · have h2 : ∃ c ∈ ds, c.Name = seg := by
        obtain ⟨c, hc, hn⟩ := h
        rcases List.mem_cons.1 hc with rfl | hc2
        · exact absurd hn hd
        · exact ⟨c, hc2, hn⟩
      obtain ⟨pre, c, post, h1, h3, h4⟩ := ih h2
      refine ⟨d :: pre, c, post, by rw [h1]; rfl, ?_, h4⟩
      intro x hx
      rcases List.mem_cons.1 hx with rfl | hx2
      · exact hd
      · exact h3 x hx2

theorem insertSegs_nil (t : StructureNode) : insertSegs [] t = t := rfl

/-- Step on a match: the first child named `seg` is updated in place. -/
theorem insertSegs_cons_of_split (seg : String) (rest : List String) (t : StructureNode)
    (pre : List StructureNode) (c : StructureNode) (post : List StructureNode)
    (hcs : t.Children = pre ++ c :: post)
    (hpre : ∀ x ∈ pre, x.Name ≠ seg) (hc : c.Name = seg) :
    insertSegs (seg :: rest) t = StructureNode.mk t.Name (pre ++ insertSegs rest c :: post) := by
  rw [insertSegs, hcs, updateFirst_of_split (insertSegs rest) seg pre c post hpre hc]

/-- Step without a match: a new child named `seg` is appended. -/
theorem insertSegs_cons_of_fresh (seg : String) (rest : List String) (t : StructureNode)
    (h : ∀ c ∈ t.Children, c.Name ≠ seg) :
    insertSegs (seg :: rest) t
      = StructureNode.mk t.Name (t.Children ++ [insertSegs rest (StructureNode.mk seg [])]) := by
  rw [insertSegs, (updateFirst_eq_none (insertSegs rest) seg t.Children).2 h]

/-- The two cases of one step of insertion. -/
theorem insertSegs_cons_cases (seg : String) (rest : List String) (t : StructureNode) :
    (∃ pre c post, t.Children = pre ++ c :: post ∧ (∀ x ∈ pre, x.Name ≠ seg) ∧ c.Name = seg ∧
        insertSegs (seg :: rest) t
          = StructureNode.mk t.Name (pre ++ insertSegs rest c :: post)) ∨
    ((∀ c ∈ t.Children, c.Name ≠ seg) ∧
        insertSegs (seg :: rest) t
          = StructureNode.mk t.Name (t.Children ++ [insertSegs rest (StructureNode.mk seg [])])) := by
  by_cases h : ∃ c ∈ t.Children, c.Name = seg
  · obtain ⟨pre, c, post, h1, h2, h3⟩ := exists_split_of_name seg t.Children h
    exact Or.inl ⟨pre, c, post, h1, h2, h3, insertSegs_cons_of_split seg rest t pre c post h1 h2 h3⟩
  · have h2 : ∀ c ∈ t.Children, c.Name ≠ seg := fun c hc hn => h ⟨c, hc, hn⟩
    exact Or.inr ⟨h2, insertSegs_cons_of_fresh seg rest t h2⟩

/-- Insertion never renames the node it is called on. -/
theorem insertSegs_Name (f : List String) (t : StructureNode) :
    (insertSegs f t).Name = t.Name := by
  cases f with
  | nil => rfl
  | cons seg rest =>
    rcases insertSegs_cons_cases seg rest t with ⟨_, _, _, _, _, _, h⟩ | ⟨_, h⟩ <;> rw [h] <;> rfl

theorem insertSegs_idem (f : List String) (t : StructureNode) :
    insertSegs f (insertSegs f t) = insertSegs f t := by
  induction f generalizing t with
  | nil => rfl
  | cons seg rest ih =>
    rcases insertSegs_cons_cases seg rest t with ⟨pre, c, post, _, h2, h3, h⟩ | ⟨h1, h⟩
    · rw [h, insertSegs_cons_of_split seg rest
        (StructureNode.mk t.Name (pre ++ insertSegs rest c :: post))
        pre (insertSegs rest c) post rfl h2 (by rw [insertSegs_Name, h3]), ih]
      rfl
    · rw [h, insertSegs_cons_of_split seg rest
        (StructureNode.mk t.Name (t.Children ++ [insertSegs rest (StructureNode.mk seg [])]))
        t.Children (insertSegs rest (StructureNode.mk seg [])) [] rfl h1
        (by rw [insertSegs_Name]; rfl), ih]
      rfl

/-! ## Idempotence, filtering, empty input -/

/-- C1. Idempotence of insertion: for every node and every sequence of strings,
calling `Update` with the sequence twice in a row gives the same tree (names,
children and their order, recursively) as calling it once. -/
theorem Update_idempotent (t : StructureNode) (parts : List String) :
    (t.Update parts).Update parts = t.Update parts := by
  rw [Update_eq_insertSegs parts t, Update_eq_insertSegs parts, insertSegs_idem]

/-- C2. Empty-segment filtering: `Update` with a sequence gives exactly the
tree that `Update` gives with the empty strings removed from the sequence; in
particular `["a.com", "", "x", ""]` and `["a.com", "x"]` give the same tree. -/
theorem Update_filter_empty (t : StructureNode) (parts : List String) :
    t.Update parts = t.Update (parts.filter (fun p => decide (p ≠ ""))) ∧
    t.Update ["a.com", "", "x", ""] = t.Update ["a.com", "x"] := by
  constructor
  · rw [Update_eq_insertSegs parts t, Update_eq_insertSegs _ t, List.filter_filter]
    simp
  · rw [Update_eq_insertSegs _ t, Update_eq_insertSegs _ t]
    rfl

/-- C3. No-op on fully empty input: when every element of the sequence is the
empty string (in particular when the sequence is empty), `Update` returns the
node unchanged. -/
theorem Update_all_empty (t : StructureNode) (parts : List String)
    (h : ∀ p ∈ parts, p = "") : t.Update parts = t := by
  have hf : parts.filter (fun p => decide (p ≠ "")) = [] := by
    rw [List.filter_eq_nil_iff]
    intro p hp
    simp [h p hp]
  rw [Update_eq_insertSegs, hf]
  rfl

/-- Witness of C3 on the spec's inputs `["", ""]`, on a tree with content. -/
theorem Update_all_empty_witness :
    (∀ p ∈ ["", ""], p = "") ∧
    (StructureNode.mk "" [StructureNode.mk "a.com" []]).Update ["", ""]
      = StructureNode.mk "" [StructureNode.mk "a.com" []] :=
  ⟨by decide, Update_all_empty _ ["", ""] (by decide)⟩

/-! ## Descendants -/

@[simp] theorem descendants_mk (n : String) (cs : List StructureNode) :
    (StructureNode.mk n cs).descendants = descendantsList cs := by
  rw [StructureNode.descendants]

theorem descendants_eq (t : StructureNode) : t.descendants = descendantsList t.Children := by
  cases t; simp

@[simp] theorem descendantsList_nil : descendantsList [] = [] := by
  rw [descendantsList]

@[simp] theorem descendantsList_cons (c : StructureNode) (cs : List StructureNode) :
    descendantsList (c :: cs) = c :: (c.descendants ++ descendantsList cs) := by
  rw [descendantsList]

@[simp] theorem descendantsList_append (as bs : List StructureNode) :
    descendantsList (as ++ bs) = descendantsList as ++ descendantsList bs := by
  induction as with
  | nil => simp
  | cons a as ih => simp [ih]

theorem mem_descendantsList (n : StructureNode) (cs : List StructureNode) :
    n ∈ descendantsList cs ↔ ∃ c ∈ cs, n = c ∨ n ∈ c.descendants := by
  induction cs with
  | nil => simp
  | cons c cs ih =>
    simp only [descendantsList_cons, List.mem_cons, List.mem_append, ih]
    constructor
    · rintro (h | h | ⟨d, hd, h⟩)
      · exact ⟨c, Or.inl rfl, Or.inl h⟩
      · exact ⟨c, Or.inl rfl, Or.inr h⟩
      · exact ⟨d, Or.inr hd, h⟩
    · rintro ⟨d, rfl | hd, h⟩
      · rcases h with h | h
        · exact Or.inl h
        · exact Or.inr (Or.inl h)
      · exact Or.inr (Or.inr ⟨d, hd, h⟩)

/-- A property holds at every node below `t` iff it holds at every child and
at every node below every child. -/
theorem forall_descendants_iff (P : StructureNode → Prop) (t : StructureNode) :
    (∀ n ∈ t.descendants, P n) ↔ ∀ c ∈ t.Children, P c ∧ ∀ n ∈ c.descendants, P n := by
  rw [descendants_eq]
  constructor
  · intro h c hc
    refine ⟨h c ((mem_descendantsList c _).2 ⟨c, hc, Or.inl rfl⟩), ?_⟩
    intro n hn
    exact h n ((mem_descendantsList n _).2 ⟨c, hc, Or.inr hn⟩)
  · intro h n hn
    obtain ⟨c, hc, h2⟩ := (mem_descendantsList n _).1 hn
    rcases h2 with rfl | h2
    · exact (h n hc).1
    · exact (h c hc).2 n h2

theorem uniqueSiblings_iff (t : StructureNode) :
    UniqueSiblings t ↔ t.childNames.Nodup ∧ ∀ c ∈ t.Children, UniqueSiblings c := by
  unfold UniqueSiblings
  simp only [List.mem_cons, forall_eq_or_imp]
  rw [forall_descendants_iff (fun n => n.childNames.Nodup) t]

/-! ## Histories of root updates -/

theorem Tree.build_snoc (history : List (List String)) (parts : List String) :
    Tree.build (history ++ [parts]) = (Tree.build history).updateRoot parts := by
  simp [Tree.build, List.foldl_append]

/-- A property of the empty root that every `Update` preserves holds of the
root after any history. -/
theorem Tree.build_induction (P : StructureNode → Prop) (h0 : P Tree.empty.root)
    (hstep : ∀ (t : StructureNode) (parts : List String), P t → P (t.Update parts))
    (history : List (List String)) : P (Tree.build history).root := by
  induction history using List.reverseRecOn with
  | nil => exact h0
  | append_singleton history parts ih =>
    rw [Tree.build_snoc]
    exact hstep _ parts ih

/-! ## Sibling-name uniqueness -/

theorem childNames_split_update (pre post : List StructureNode) (c d : StructureNode)
    (h : d.Name = c.Name) :
    (pre ++ d :: post).map StructureNode.Name = (pre ++ c :: post).map StructureNode.Name := by
  simp [h]

theorem insertSegs_unique (f : List String) (t : StructureNode) (h : UniqueSiblings t) :
    UniqueSiblings (insertSegs f t) := by
  induction f generalizing t with
  | nil => exact h
  | cons seg rest ih =>
    rw [uniqueSiblings_iff] at h
    obtain ⟨hnames, hkids⟩ := h
    rcases insertSegs_cons_cases seg rest t with ⟨pre, c, post, hcs, _, _, he⟩ | ⟨hfresh, he⟩
    · rw [he, uniqueSiblings_iff]
      constructor
      · show ((pre ++ insertSegs rest c :: post).map StructureNode.Name).Nodup
        rw [childNames_split_update pre post c _ (insertSegs_Name rest c), ← hcs]
        exact hnames
      · intro x hx
        simp only [Children_mk, List.mem_append, List.mem_cons] at hx
        rcases hx with hx | rfl | hx
        · exact hkids x (by rw [hcs]; simp [hx])
        · exact ih c (hkids c (by rw [hcs]; simp))
        · exact hkids x (by rw [hcs]; simp [hx])
    · rw [he, uniqueSiblings_iff]
      constructor
      · show ((t.Children ++ [insertSegs rest (StructureNode.mk seg [])]).map
          StructureNode.Name).Nodup
        rw [List.map_append, List.map_singleton, insertSegs_Name, Name_mk]
        refine List.Nodup.append hnames (List.nodup_singleton seg) ?_
        rw [List.disjoint_singleton]
        intro hmem
        obtain ⟨c, hc, hn⟩ := List.mem_map.1 hmem
        exact hfresh c hc hn
      · intro x hx
        simp only [Children_mk, List.mem_append, List.mem_singleton] at hx
        rcases hx with hx | rfl
        · exact hkids x hx
        · refine ih _ ?_
          rw [uniqueSiblings_iff]
          exact ⟨List.nodup_nil, by simp⟩

theorem uniqueSiblings_empty : UniqueSiblings Tree.empty.root := by
  rw [uniqueSiblings_iff]
  exact ⟨List.nodup_nil, by simp [Tree.empty]⟩

/-- C4. Sibling-name uniqueness is an invariant of `Update`: a tree in which
the children of every node have pairwise distinct names still has that property
after `Update` with any sequence; hence every tree built from an empty `Tree` by
any history of root `Update` calls has unique names among the children of each
node. -/
theorem Update_preserves_uniqueSiblings :
    (∀ (t : StructureNode) (parts : List String),
        UniqueSiblings t → UniqueSiblings (t.Update parts)) ∧
    (∀ history : List (List String), UniqueSiblings (Tree.build history).root) := by
  have hstep : ∀ (t : StructureNode) (parts : List String),
      UniqueSiblings t → UniqueSiblings (t.Update parts) := by
    intro t parts h
    rw [Update_eq_insertSegs]
    exact insertSegs_unique _ t h
  exact ⟨hstep, Tree.build_induction UniqueSiblings uniqueSiblings_empty hstep⟩

/-- Witness of C4: a tree with unique sibling names, updated along a branch
sharing a prefix with it. -/
theorem Update_preserves_uniqueSiblings_witness :
    UniqueSiblings (StructureNode.mk "" [StructureNode.mk "a.com" [StructureNode.mk "x" []]]) ∧
    UniqueSiblings
      ((StructureNode.mk "" [StructureNode.mk "a.com" [StructureNode.mk "x" []]]).Update
        ["a.com", "y"]) :=
  ⟨by decide, Update_preserves_uniqueSiblings.1 _ ["a.com", "y"] (by decide)⟩

/-! ## Insertion into an empty tree, and the order of children -/

theorem insertSegs_leaf (f : List String) (name : String) :
    insertSegs f (StructureNode.mk name []) = StructureNode.mk name (chain f) := by
  induction f generalizing name with
  | nil => rfl
  | cons seg rest ih =>
    rw [insertSegs_cons_of_fresh seg rest _ (by simp), ih]
    rfl

/-- C5. Single chain on an empty tree: when the sequence has at least one
non-empty element, `Update` on the root of a fresh `Tree` makes `Structure()`
return the chain of the non-empty elements `s1 -> s2 -> ... -> sk`: exactly one
node named `s1`, with exactly one child `s2`, down to `sk` with no children. -/
theorem Update_fresh_chain (parts : List String)
    (h : parts.filter (fun p => decide (p ≠ "")) ≠ []) :
    (Tree.empty.updateRoot parts).Structure = chain (parts.filter (fun p => decide (p ≠ ""))) ∧
    ∃ seg rest, parts.filter (fun p => decide (p ≠ "")) = seg :: rest ∧
      (Tree.empty.updateRoot parts).Structure = [StructureNode.mk seg (chain rest)] := by
  have h1 : (Tree.empty.updateRoot parts).Structure
      = chain (parts.filter (fun p => decide (p ≠ ""))) := by
    show (Tree.empty.root.Update parts).Children = _
    rw [Update_eq_insertSegs]
    show (insertSegs _ (StructureNode.mk "" [])).Children = _
    rw [insertSegs_leaf]
    rfl
  refine ⟨h1, ?_⟩
  cases hf : parts.filter (fun p => decide (p ≠ "")) with
  | nil => exact absurd hf h
  | cons seg rest => exact ⟨seg, rest, rfl, by rw [h1, hf]; rfl⟩

/-- Witness of C5 on the spec's input: `a.com -> x -> y -> no children`. -/
theorem Update_fresh_chain_witness :
    (Tree.empty.updateRoot ["a.com", "x", "y"]).Structure
      = [StructureNode.mk "a.com" [StructureNode.mk "x" [StructureNode.mk "y" []]]] :=
  (Update_fresh_chain ["a.com", "x", "y"] (by decide)).1

theorem insertSegs_childNames (f : List String) (t : StructureNode) :
    (insertSegs f t).childNames =
      match f.head? with
      | none => t.childNames
      | some seg => if seg ∈ t.childNames then t.childNames else t.childNames ++ [seg] := by
  cases f with
  | nil => rfl
  | cons seg rest =>
    rcases insertSegs_cons_cases seg rest t with ⟨pre, c, post, hcs, _, hc, he⟩ | ⟨hfresh, he⟩
    · have hmem : seg ∈ t.childNames :=
        List.mem_map.2 ⟨c, by rw [hcs]; simp, hc⟩
      rw [he]
      simp only [List.head?_cons, hmem, if_true]
      show (pre ++ insertSegs rest c :: post).map StructureNode.Name = t.Children.map _
      rw [childNames_split_update pre post c _ (insertSegs_Name rest c), hcs]
    · have hmem : seg ∉ t.childNames := by
        intro hmem
        obtain ⟨c, hc, hn⟩ := List.mem_map.1 hmem
        exact hfresh c hc hn
      rw [he]
      simp only [List.head?_cons, hmem, if_false]
      show (t.Children ++ [insertSegs rest (StructureNode.mk seg [])]).map StructureNode.Name = _
      rw [List.map_append, List.map_singleton, insertSegs_Name]
      rfl

/-- C6. Shared-prefix branching with order preserved: the list of child names
after `Update` is the list before when the filtered sequence is empty or its
first segment already names a child, and otherwise the list before with that
first segment appended at the end.  Inserting `["a.com","x","y"]` and then
`["a.com","x","z"]` into an empty tree yields `a.com -> x -> [y, z]`. -/
theorem Update_childNames (t : StructureNode) (parts : List String) :
    (t.Update parts).childNames =
      (match (parts.filter (fun p => decide (p ≠ ""))).head? with
        | none => t.childNames
        | some seg => if seg ∈ t.childNames then t.childNames else t.childNames ++ [seg]) ∧
    ((Tree.empty.updateRoot ["a.com", "x", "y"]).updateRoot ["a.com", "x", "z"]).Structure
      = [StructureNode.mk "a.com"
          [StructureNode.mk "x" [StructureNode.mk "y" [], StructureNode.mk "z" []]]] := by
  constructor
  · rw [Update_eq_insertSegs]
    exact insertSegs_childNames _ t
  · show ((Tree.empty.root.Update _).Update _).Children = _
    rw [Update_eq_insertSegs, Update_eq_insertSegs]
    rfl

/-! ## Walking by child name -/

@[simp] theorem walk_nil (t : StructureNode) : walk t [] = some t := by
  cases t; rfl

theorem walk_cons (t : StructureNode) (seg : String) (rest : List String) :
    walk t (seg :: rest) =
      (t.Children.find? (fun c => decide (c.Name = seg))).bind (fun c => walk c rest) := by
  rw [walk]
  cases t.Children.find? (fun c => decide (c.Name = seg)) <;> rfl

theorem walk_append (t : StructureNode) (a b : List String) :
    walk t (a ++ b) = (walk t a).bind (fun n => walk n b) := by
  induction a generalizing t with
  | nil => simp
  | cons seg rest ih =>
    rw [List.cons_append, walk_cons, walk_cons]
    cases t.Children.find? (fun c => decide (c.Name = seg)) with
    | none => rfl
    | some c => simp [ih]

theorem find_of_split (seg : String) (pre : List StructureNode) (c : StructureNode)
    (post : List StructureNode) (hpre : ∀ x ∈ pre, x.Name ≠ seg) (hc : c.Name = seg) :
    (pre ++ c :: post).find? (fun x => decide (x.Name = seg)) = some c := by
  have h1 : pre.find? (fun x => decide (x.Name = seg)) = none := by
    rw [List.find?_eq_none]
    intro x hx
    simpa using hpre x hx
  rw [List.find?_append, h1, List.find?_cons_of_pos _ (by simpa using hc)]
  rfl

/-- Replacing a child by one of the same name does not change what a lookup of
another name finds. -/
theorem find_split_other (s : String) (pre post : List StructureNode) (c d : StructureNode)
    (hc : c.Name ≠ s) (hd : d.Name ≠ s) :
    (pre ++ d :: post).find? (fun x => decide (x.Name = s))
      = (pre ++ c :: post).find? (fun x => decide (x.Name = s)) := by
  rw [List.find?_append, List.find?_append,
    List.find?_cons_of_neg _ (by simpa using hd), List.find?_cons_of_neg _ (by simpa using hc)]

theorem find_append_of_some (s : String) (cs extra : List StructureNode) (c : StructureNode)
    (h : cs.find? (fun x => decide (x.Name = s)) = some c) :
    (cs ++ extra).find? (fun x => decide (x.Name = s)) = some c := by
  rw [List.find?_append, h]
  rfl

/-- After inserting a filtered sequence, the sequence can be walked. -/
theorem walk_insertSegs_self (f : List String) (t : StructureNode) :
    ∃ n, walk (insertSegs f t) f = some n := by
  induction f generalizing t with
  | nil => exact ⟨t, by simp [insertSegs_nil]⟩
  | cons seg rest ih =>
    rcases insertSegs_cons_cases seg rest t with ⟨pre, c, post, _, hpre, hc, he⟩ | ⟨hfresh, he⟩
    · obtain ⟨n, hn⟩ := ih c
      refine ⟨n, ?_⟩
      rw [he, walk_cons, Children_mk,
        find_of_split seg pre (insertSegs rest c) post hpre (by rw [insertSegs_Name, hc])]
      exact hn
    · obtain ⟨n, hn⟩ := ih (StructureNode.mk seg [])
      refine ⟨n, ?_⟩
      rw [he, walk_cons, Children_mk,
        find_of_split seg t.Children (insertSegs rest (StructureNode.mk seg [])) [] hfresh
          (by rw [insertSegs_Name]; rfl)]
      exact hn

/-- What can be walked before an insertion can be walked after it, and the node
reached is the old one after some insertion below it (so it keeps its name). -/
theorem walk_insertSegs_mono (q f : List String) (t n : StructureNode)
    (h : walk t q = some n) : ∃ g, walk (insertSegs f t) q = some (insertSegs g n) := by
  induction q generalizing t f with
  | nil =>
    rw [walk_nil] at h
    injection h with h
    exact ⟨f, by rw [walk_nil, h]⟩
  | cons s q ih =>
    rw [walk_cons] at h
    cases hfind : t.Children.find? (fun c => decide (c.Name = s)) with
    | none => rw [hfind] at h; simp at h
    | some c0 =>
      rw [hfind] at h
      have hw : walk c0 q = some n := h
      cases f with
      | nil =>
        refine ⟨[], ?_⟩
        rw [insertSegs_nil, insertSegs_nil, walk_cons, hfind]
        exact hw
      | cons seg rest =>
        rcases insertSegs_cons_cases seg rest t with
          ⟨pre, c, post, hcs, hpre, hc, he⟩ | ⟨hfresh, he⟩
        · by_cases hs : s = seg
          · subst hs
            have hc0 : c0 = c := by
              rw [hcs, find_of_split s pre c post hpre hc] at hfind
              injection hfind with hfind
              exact hfind.symm
            subst hc0
            obtain ⟨g, hg⟩ := ih rest c0 hw
            refine ⟨g, ?_⟩
            rw [he, walk_cons, Children_mk,
              find_of_split s pre (insertSegs rest c0) post hpre (by rw [insertSegs_Name, hc])]
            exact hg
          · have hcs2 : c.Name ≠ s := by rw [hc]; exact fun h2 => hs h2.symm
            obtain ⟨g, hg⟩ := ih [] c0 hw
            refine ⟨g, ?_⟩
            rw [he, walk_cons, Children_mk,
              find_split_other s pre post c (insertSegs rest c) hcs2
                (by rw [insertSegs_Name]; exact hcs2), ← hcs, hfind]
            rw [insertSegs_nil] at hg
            exact hg
        · obtain ⟨g, hg⟩ := ih [] c0 hw
          refine ⟨g, ?_⟩
          rw [he, walk_cons, Children_mk, find_append_of_some s t.Children _ c0 hfind]
          rw [insertSegs_nil] at hg
          exact hg

/-- A node reached by a walk is the start node or one of its descendants. -/
theorem walk_mem_subtree (q : List String) (t n : StructureNode) (h : walk t q = some n) :
    n ∈ t :: t.descendants := by
  induction q generalizing t with
  | nil =>
    rw [walk_nil] at h
    injection h with h
    rw [h]
    exact List.mem_cons_self _ _
  | cons s q ih =>
    rw [walk_cons] at h
    cases hfind : t.Children.find? (fun c => decide (c.Name = s)) with
    | none => rw [hfind] at h; simp at h
    | some c =>
      rw [hfind] at h
      have hc : c ∈ t.Children := List.mem_of_find?_eq_some hfind
      refine List.mem_cons_of_mem _ ?_
      rw [descendants_eq, mem_descendantsList]
      refine ⟨c, hc, ?_⟩
      rcases List.mem_cons.1 (ih c h) with h2 | h2
      · exact Or.inl h2
      · exact Or.inr h2

/-- C7. Prefix implies ancestor: when `A` is a strict prefix of `B`, in the tree
obtained from any tree by `Update A` and `Update B` in either order, walking the
non-empty segments of `A` from the root reaches a node, walking those of `B`
reaches a node, and the second node lies in the subtree of the first, reached
from it by walking the remaining non-empty segments of `B`. -/
theorem Update_prefix_ancestor (t : StructureNode) (A B : List String)
    (hpre : A <+: B) (hne : A ≠ B) (r : StructureNode)
    (hr : r = (t.Update A).Update B ∨ r = (t.Update B).Update A) :
    ∃ nA nB,
      walk r (A.filter (fun p => decide (p ≠ ""))) = some nA ∧
      walk r (B.filter (fun p => decide (p ≠ ""))) = some nB ∧
      walk nA ((B.filter (fun p => decide (p ≠ ""))).drop
        (A.filter (fun p => decide (p ≠ ""))).length) = some nB ∧
      nB ∈ nA :: nA.descendants := by
  obtain ⟨C, rfl⟩ := hpre
  have hB : ∃ nB, walk r ((A ++ C).filter (fun p => decide (p ≠ ""))) = some nB := by
    rcases hr with rfl | rfl
    · rw [Update_eq_insertSegs (A ++ C)]
      exact walk_insertSegs_self _ _
    · rw [Update_eq_insertSegs A, Update_eq_insertSegs (A ++ C)]
      obtain ⟨n, hn⟩ := walk_insertSegs_self ((A ++ C).filter (fun p => decide (p ≠ ""))) t
      obtain ⟨g, hg⟩ := walk_insertSegs_mono _ (A.filter (fun p => decide (p ≠ ""))) _ n hn
      exact ⟨_, hg⟩
  obtain ⟨nB, hnB⟩ := hB
  have hsplit := hnB
  rw [List.filter_append, walk_append] at hsplit
  cases hA : walk r (A.filter (fun p => decide (p ≠ ""))) with
  | none => rw [hA] at hsplit; simp at hsplit
  | some nA =>
    rw [hA] at hsplit
    have hrem : walk nA (((A ++ C).filter (fun p => decide (p ≠ ""))).drop
        (A.filter (fun p => decide (p ≠ ""))).length) = some nB := by
      rw [List.filter_append, List.drop_left]
      exact hsplit
    exact ⟨nA, nB, rfl, hnB, hrem, walk_mem_subtree _ nA nB hrem⟩

/-- Witness of C7 with `A = ["a.com"]`, `B = ["a.com", "x"]` on the empty root. -/
theorem Update_prefix_ancestor_witness :
    ∃ nA nB,
      walk ((Tree.empty.root.Update ["a.com", "x"]).Update ["a.com"])
        (["a.com"].filter (fun p => decide (p ≠ ""))) = some nA ∧
      walk ((Tree.empty.root.Update ["a.com", "x"]).Update ["a.com"])
        (["a.com", "x"].filter (fun p => decide (p ≠ ""))) = some nB ∧
      walk nA ((["a.com", "x"].filter (fun p => decide (p ≠ ""))).drop
        (["a.com"].filter (fun p => decide (p ≠ ""))).length) = some nB ∧
      nB ∈ nA :: nA.descendants :=
  Update_prefix_ancestor Tree.empty.root ["a.com"] ["a.com", "x"]
    ⟨["x"], rfl⟩ (by decide) _ (Or.inr rfl)

/-! ## Counting the nodes an insertion adds -/

theorem countBelow_mk (name : String) (cs : List StructureNode) :
    (StructureNode.mk name cs).countBelow = (descendantsList cs).length := by
  simp [StructureNode.countBelow]

theorem countBelow_eq (t : StructureNode) :
    t.countBelow = (descendantsList t.Children).length := by
  cases t; exact countBelow_mk _ _

theorem length_descendantsList_split (pre post : List StructureNode) (c : StructureNode) :
    (descendantsList (pre ++ c :: post)).length
      = (descendantsList pre).length + (1 + c.countBelow) + (descendantsList post).length := by
  simp [StructureNode.countBelow]
  omega

theorem length_descendantsList_chain (f : List String) :
    (descendantsList (chain f)).length = f.length := by
  induction f with
  | nil => simp [chain]
  | cons seg rest ih => simp [chain, ih]

/-- A sequence that can be walked is already in the tree: inserting it changes
nothing. -/
theorem insertSegs_of_walk (f : List String) (t : StructureNode)
    (h : (walk t f).isSome = true) : insertSegs f t = t := by
  induction f generalizing t with
  | nil => rfl
  | cons seg rest ih =>
    rw [walk_cons] at h
    rcases insertSegs_cons_cases seg rest t with ⟨pre, c, post, hcs, hpre, hc, he⟩ | ⟨hfresh, he⟩
    · rw [hcs, find_of_split seg pre c post hpre hc] at h
      rw [he, ih c h, ← hcs]
      exact mk_eta t
    · have hnone : t.Children.find? (fun c => decide (c.Name = seg)) = none := by
        rw [List.find?_eq_none]
        intro x hx
        simpa using hfresh x hx
      rw [hnone] at h
      simp at h

theorem insertSegs_countBelow (f : List String) (t : StructureNode) (k : Nat)
    (hw : (walk t (f.take k)).isSome = true)
    (hmax : ∀ j, k < j → j ≤ f.length → walk t (f.take j) = none) :
    (insertSegs f t).countBelow = t.countBelow + (f.length - k) := by
  induction f generalizing t k with
  | nil => simp [insertSegs_nil]
  | cons seg rest ih =>
    rcases insertSegs_cons_cases seg rest t with ⟨pre, c, post, hcs, hpre, hc, he⟩ | ⟨hfresh, he⟩
    · have hfind := find_of_split seg pre c post hpre hc
      rw [← hcs] at hfind
      cases k with
      | zero =>
        have h1 := hmax 1 (by omega) (by simp)
        rw [List.take_succ_cons, List.take_zero, walk_cons, hfind] at h1
        simp at h1
      | succ k =>
        rw [List.take_succ_cons, walk_cons, hfind] at hw
        have hw2 : (walk c (rest.take k)).isSome = true := hw
        have hmax2 : ∀ j, k < j → j ≤ rest.length → walk c (rest.take j) = none := by
          intro j hj hjl
          have h1 := hmax (j + 1) (by omega) (by simp; omega)
          rw [List.take_succ_cons, walk_cons, hfind] at h1
          exact h1
        have hih := ih c k hw2 hmax2
        rw [he, countBelow_mk, length_descendantsList_split, hih, countBelow_eq t, hcs,
          length_descendantsList_split]
        simp only [List.length_cons]
        omega
    · have hnone : t.Children.find? (fun c => decide (c.Name = seg)) = none := by
        rw [List.find?_eq_none]
        intro x hx
        simpa using hfresh x hx
      cases k with
      | zero =>
        rw [he, insertSegs_leaf, countBelow_mk, descendantsList_append, List.length_append,
          descendantsList_cons, descendantsList_nil, descendants_mk,
          countBelow_eq t]
        simp [length_descendantsList_chain]
      | succ k =>
        rw [List.take_succ_cons, walk_cons, hnone] at hw
        simp at hw

/-- C8. Only the differing suffix is appended: with `f` the non-empty segments
of `parts` and `k` the length of the longest prefix of `f` that can be walked
from `t` by child name, `Update parts` increases the number of nodes below `t`
by exactly `f.length - k`; and when all of `f` can be walked (`k = f.length`) the
tree is unchanged. -/
theorem Update_appends_suffix (t : StructureNode) (parts : List String) (k : Nat)
    (_hk : k ≤ (parts.filter (fun p => decide (p ≠ ""))).length)
    (hw : (walk t ((parts.filter (fun p => decide (p ≠ ""))).take k)).isSome = true)
    (hmax : ∀ j, k < j → j ≤ (parts.filter (fun p => decide (p ≠ ""))).length →
      walk t ((parts.filter (fun p => decide (p ≠ ""))).take j) = none) :
    (t.Update parts).countBelow
      = t.countBelow + ((parts.filter (fun p => decide (p ≠ ""))).length - k) ∧
    (k = (parts.filter (fun p => decide (p ≠ ""))).length → t.Update parts = t) := by
  rw [Update_eq_insertSegs]
  refine ⟨insertSegs_countBelow _ t k hw hmax, ?_⟩
  intro hkn
  rw [hkn, List.take_length] at hw
  exact insertSegs_of_walk _ t hw

/-- Witness of C8: below the root there are `a.com` and `x`; of `a.com, x, y, z`
the prefix of length `2` is the longest that can be walked, and two nodes are
added. -/
theorem Update_appends_suffix_witness :
    ((StructureNode.mk "" [StructureNode.mk "a.com" [StructureNode.mk "x" []]]).Update
        ["a.com", "", "x", "y", "z"]).countBelow
      = (StructureNode.mk "" [StructureNode.mk "a.com" [StructureNode.mk "x" []]]).countBelow
        + ((["a.com", "", "x", "y", "z"].filter (fun p => decide (p ≠ ""))).length - 2) ∧
    (2 = (["a.com", "", "x", "y", "z"].filter (fun p => decide (p ≠ ""))).length →
      (StructureNode.mk "" [StructureNode.mk "a.com" [StructureNode.mk "x" []]]).Update
        ["a.com", "", "x", "y", "z"]
      = StructureNode.mk "" [StructureNode.mk "a.com" [StructureNode.mk "x" []]]) :=
  Update_appends_suffix
    (StructureNode.mk "" [StructureNode.mk "a.com" [StructureNode.mk "x" []]])
    ["a.com", "", "x", "y", "z"] 2 (by decide) (by decide)
    (by
      intro j h1 h2
      have h3 : j ≤ 4 := h2
      interval_cases j <;> rfl)

/-! ## Names of the nodes -/

/-- A property of names that holds of every inserted segment and of every node
below `t` holds of every node below `t` after the insertion. -/
theorem insertSegs_names (P : String → Prop) (f : List String) (t : StructureNode)
    (hf : ∀ s ∈ f, P s) (ht : ∀ n ∈ t.descendants, P n.Name) :
    ∀ n ∈ (insertSegs f t).descendants, P n.Name := by
  induction f generalizing t with
  | nil => exact ht
  | cons seg rest ih =>
    have hrest : ∀ s ∈ rest, P s := fun s hs => hf s (List.mem_cons_of_mem _ hs)
    rw [forall_descendants_iff (fun n => P n.Name)] at ht ⊢
    rcases insertSegs_cons_cases seg rest t with ⟨pre, c, post, hcs, _, _, he⟩ | ⟨_, he⟩
    · rw [he]
      intro x hx
      simp only [Children_mk, List.mem_append, List.mem_cons] at hx
      rcases hx with hx | rfl | hx
      · exact ht x (by rw [hcs]; simp [hx])
      · have hc := ht c (by rw [hcs]; simp)
        exact ⟨by rw [insertSegs_Name]; exact hc.1, ih c hrest hc.2⟩
      · exact ht x (by rw [hcs]; simp [hx])
    · rw [he]
      intro x hx
      simp only [Children_mk, List.mem_append, List.mem_singleton] at hx
      rcases hx with hx | rfl
      · exact ht x hx
      · refine ⟨?_, ih _ hrest (by simp)⟩
        rw [insertSegs_Name]
        exact hf seg (List.mem_cons_self _ _)

theorem Update_names (P : String → Prop) (parts : List String) (t : StructureNode)
    (hf : ∀ s ∈ parts, s ≠ "" → P s) (ht : ∀ n ∈ t.descendants, P n.Name) :
    ∀ n ∈ (t.Update parts).descendants, P n.Name := by
  rw [Update_eq_insertSegs]
  refine insertSegs_names P _ t ?_ ht
  intro s hs
  rw [List.mem_filter] at hs
  exact hf s hs.1 (by simpa using hs.2)

/-- A property of names that holds of every non-empty segment of every
sequence of a history holds of every node of the tree built by the history. -/
theorem Tree.build_names (P : String → Prop) (history : List (List String))
    (hP : ∀ parts ∈ history, ∀ s ∈ parts, s ≠ "" → P s) :
    ∀ n ∈ descendantsList (Tree.build history).Structure, P n.Name := by
  induction history using List.reverseRecOn with
  | nil => simp [Tree.build, Tree.empty, Tree.Structure]
  | append_singleton history parts ih =>
    rw [Tree.build_snoc]
    have h1 := ih (fun q hq => hP q (List.mem_append_left _ hq))
    have h2 := Update_names P parts (Tree.build history).root
      (hP parts (by simp)) (by rw [descendants_eq]; exact h1)
    rw [descendants_eq] at h2
    exact h2

/-- C9. Names are never empty: in every tree built from an empty `Tree` by any
history of root `Update` calls with arbitrary sequences, every node returned by
`Structure()` and every descendant of it has a non-empty `Name`. -/
theorem Structure_names_nonempty (history : List (List String)) :
    ∀ n ∈ descendantsList (Tree.build history).Structure, n.Name ≠ "" :=
  Tree.build_names (fun s => s ≠ "") history (fun _ _ _ _ h => h)

/-- Witness of C9: the node `x` of the tree built by one call with empty
segments around it. -/
theorem Structure_names_nonempty_witness :
    StructureNode.mk "x" [] ∈ descendantsList (Tree.build [["", "a.com", "", "x", ""]]).Structure ∧
    (StructureNode.mk "x" []).Name ≠ "" :=
  ⟨by rw [Tree.build, List.foldl_cons, Tree.updateRoot, Update_eq_insertSegs]; decide,
   Structure_names_nonempty [["", "a.com", "", "x", ""]] (StructureNode.mk "x" [])
    (by rw [Tree.build, List.foldl_cons, Tree.updateRoot, Update_eq_insertSegs]; decide)⟩

/-- Counterexample to C10 as stated: the call `Update [" "]` on an empty tree
creates a top-level node whose name is one space, a non-empty string made of
whitespace only; the filter of `Update` drops empty strings and nothing else. -/
theorem whitespace_name_exists :
    StructureNode.mk " " [] ∈ descendantsList (Tree.build [[" "]]).Structure ∧
    ((StructureNode.mk " " []).Name = "" ∨ whitespaceOnly (StructureNode.mk " " []).Name = true) :=
  ⟨by rw [Tree.build, List.foldl_cons, Tree.updateRoot, Update_eq_insertSegs]; decide,
   Or.inr (by decide)⟩

/-- C10, amended. In every tree built from an empty `Tree` by any history of
root `Update` calls, every node of `Structure()` at any depth has a `Name` that
is not empty and that is an element of one of the sequences passed to `Update`;
so a name made of whitespace only occurs only where such a string was passed as
a segment. -/
theorem Structure_names_from_input (history : List (List String)) :
    ∀ n ∈ descendantsList (Tree.build history).Structure,
      n.Name ≠ "" ∧ ∃ parts ∈ history, n.Name ∈ parts :=
  Tree.build_names (fun s => s ≠ "" ∧ ∃ parts ∈ history, s ∈ parts) history
    (fun parts hp _ hs hne => ⟨hne, parts, hp, hs⟩)

/-- Witness of the amended C10 on the history of the counterexample. -/
theorem Structure_names_from_input_witness :
    StructureNode.mk " " [] ∈ descendantsList (Tree.build [["", " "]]).Structure ∧
    ((StructureNode.mk " " []).Name ≠ "" ∧
      ∃ parts ∈ [["", " "]], (StructureNode.mk " " []).Name ∈ parts) :=
  ⟨by rw [Tree.build, List.foldl_cons, Tree.updateRoot, Update_eq_insertSegs]; decide,
   Structure_names_from_input [["", " "]] (StructureNode.mk " " [])
    (by rw [Tree.build, List.foldl_cons, Tree.updateRoot, Update_eq_insertSegs]; decide)⟩

/-! ## Growth, distinct branches, and the frame of one step -/

/-- C13. Contents only grow: whatever sequence of segments can be walked by
child name from `t` before `Update parts` can still be walked from `t` after it,
and reaches a node with the same name; an insertion removes and renames no
node. -/
theorem Update_walk_preserved (t : StructureNode) (parts q : List String) (n : StructureNode)
    (h : walk t q = some n) :
    ∃ m, walk (t.Update parts) q = some m ∧ m.Name = n.Name := by
  rw [Update_eq_insertSegs]
  obtain ⟨g, hg⟩ := walk_insertSegs_mono q (parts.filter (fun p => decide (p ≠ ""))) t n h
  exact ⟨insertSegs g n, hg, insertSegs_Name g n⟩

/-- Witness of C13: the node `x` below `a.com` is still reached after the
insertion of a sibling branch. -/
theorem Update_walk_preserved_witness :
    ∃ m, walk ((StructureNode.mk "" [StructureNode.mk "a.com" [StructureNode.mk "x" []]]).Update
        ["a.com", "y"]) ["a.com", "x"] = some m ∧ m.Name = (StructureNode.mk "x" []).Name :=
  Update_walk_preserved (StructureNode.mk "" [StructureNode.mk "a.com" [StructureNode.mk "x" []]])
    ["a.com", "y"] ["a.com", "x"] (StructureNode.mk "x" []) (by decide)

theorem filter_append_singleton (P : List String) (s : String) (hs : s ≠ "") :
    (P ++ [s]).filter (fun p => decide (p ≠ "")) = P.filter (fun p => decide (p ≠ "")) ++ [s] := by
  rw [List.filter_append]
  simp [hs]

/-- After a walk of `q ++ [s]` succeeds, the node reached is a child named `s`
of the node reached by `q`. -/
theorem walk_snoc_child (r : StructureNode) (q : List String) (s : String) (c : StructureNode)
    (h : walk r (q ++ [s]) = some c) :
    ∃ n, walk r q = some n ∧ c ∈ n.Children ∧ c.Name = s := by
  rw [walk_append] at h
  cases hq : walk r q with
  | none => rw [hq] at h; simp at h
  | some n =>
    rw [hq] at h
    have h2 : walk n [s] = some c := h
    rw [walk_cons] at h2
    cases hfind : n.Children.find? (fun x => decide (x.Name = s)) with
    | none => rw [hfind] at h2; simp at h2
    | some d =>
      rw [hfind] at h2
      have hd : d = c := by simpa using h2
      subst hd
      refine ⟨n, rfl, List.mem_of_find?_eq_some hfind, ?_⟩
      simpa using List.find?_some hfind

/-- C15. No merging of distinct segments: for a non-empty sequence `P` and two
different non-empty strings `s` and `u` (equality of strings is exact, so a
difference in letter case counts), after `Update (P ++ [s])` and
`Update (P ++ [u])` the node reached by walking `P` has a child named exactly
`s` and a different child named exactly `u`. -/
theorem Update_distinct_branches (t : StructureNode) (P : List String) (s u : String)
    (_hP : P ≠ []) (hs : s ≠ "") (hu : u ≠ "") (hsu : s ≠ u) :
    ∃ n c d, walk ((t.Update (P ++ [s])).Update (P ++ [u]))
        (P.filter (fun p => decide (p ≠ ""))) = some n ∧
      c ∈ n.Children ∧ d ∈ n.Children ∧ c.Name = s ∧ d.Name = u ∧ c ≠ d := by
  have hwu : ∃ d, walk ((t.Update (P ++ [s])).Update (P ++ [u]))
      (P.filter (fun p => decide (p ≠ "")) ++ [u]) = some d := by
    rw [Update_eq_insertSegs (P ++ [u]), filter_append_singleton P u hu]
    exact walk_insertSegs_self _ _
  have hws : ∃ c, walk ((t.Update (P ++ [s])).Update (P ++ [u]))
      (P.filter (fun p => decide (p ≠ "")) ++ [s]) = some c := by
    rw [Update_eq_insertSegs (P ++ [s]), Update_eq_insertSegs (P ++ [u]),
      filter_append_singleton P s hs]
    obtain ⟨c0, hc0⟩ := walk_insertSegs_self (P.filter (fun p => decide (p ≠ "")) ++ [s]) t
    obtain ⟨g, hg⟩ := walk_insertSegs_mono _ ((P ++ [u]).filter (fun p => decide (p ≠ ""))) _ c0 hc0
    exact ⟨_, hg⟩
  obtain ⟨d, hd⟩ := hwu
  obtain ⟨c, hc⟩ := hws
  obtain ⟨n, hn, hdmem, hdname⟩ := walk_snoc_child _ _ u d hd
  obtain ⟨n2, hn2, hcmem, hcname⟩ := walk_snoc_child _ _ s c hc
  have hnn : n2 = n := by
    rw [hn] at hn2
    injection hn2 with hn2
    exact hn2.symm
  subst hnn
  refine ⟨n2, c, d, hn, hcmem, hdmem, hcname, hdname, ?_⟩
  intro hcd
  rw [hcd, hdname] at hcname
  exact hsu hcname.symm

/-- Witness of C15 with two segments that differ in letter case only. -/
theorem Update_distinct_branches_witness :
    ∃ n c d, walk ((Tree.empty.root.Update (["h", "users"] ++ ["Bob"])).Update
        (["h", "users"] ++ ["bob"]))
        (["h", "users"].filter (fun p => decide (p ≠ ""))) = some n ∧
      c ∈ n.Children ∧ d ∈ n.Children ∧ c.Name = "Bob" ∧ d.Name = "bob" ∧ c ≠ d :=
  Update_distinct_branches Tree.empty.root ["h", "users"] "Bob" "bob"
    (by decide) (by decide) (by decide) (by decide)

theorem Update_of_filtered (rest : List String)
    (h : rest.filter (fun p => decide (p ≠ "")) = rest) (c : StructureNode) :
    c.Update rest = insertSegs rest c := by
  rw [Update_eq_insertSegs, h]

/-- C16. Frame of one insertion step, first match wins: when the non-empty
segments of `parts` are `seg :: rest`, `Update parts` keeps the name of `t`, and
either some child is named `seg`, and then the first such child becomes the
result of `Update rest` on it and every other child stays as it is, in place; or
no child is named `seg`, and then the existing children stay as they are and
one child, `Update rest` of a new node named `seg`, is appended.  Nothing is
assumed about duplicate names among the children. -/
theorem Update_frame (t : StructureNode) (parts : List String) (seg : String)
    (rest : List String) (hf : parts.filter (fun p => decide (p ≠ "")) = seg :: rest) :
    (t.Update parts).Name = t.Name ∧
    ((∃ pre c post, t.Children = pre ++ c :: post ∧ (∀ x ∈ pre, x.Name ≠ seg) ∧ c.Name = seg ∧
        (t.Update parts).Children = pre ++ c.Update rest :: post) ∨
     ((∀ c ∈ t.Children, c.Name ≠ seg) ∧
        (t.Update parts).Children = t.Children ++ [(StructureNode.mk seg []).Update rest])) := by
  have hrest := filter_tail_fixed seg rest parts hf
  rw [Update_eq_insertSegs, hf]
  refine ⟨insertSegs_Name _ t, ?_⟩
  rcases insertSegs_cons_cases seg rest t with ⟨pre, c, post, hcs, hpre, hc, he⟩ | ⟨hfresh, he⟩
  · refine Or.inl ⟨pre, c, post, hcs, hpre, hc, ?_⟩
    rw [he, Update_of_filtered rest hrest]
    rfl
  · refine Or.inr ⟨hfresh, ?_⟩
    rw [he, Update_of_filtered rest hrest]
    rfl

/-- Witness of C16 on a node with two children of the same name: only the
first one receives the remaining segment. -/
theorem Update_frame_witness :
    ((StructureNode.mk "r" [StructureNode.mk "a" [], StructureNode.mk "a" []]).Update
        ["a", "", "x"]).Children
      = [StructureNode.mk "a" [StructureNode.mk "x" []], StructureNode.mk "a" []] ∧
    ((StructureNode.mk "r" [StructureNode.mk "a" [], StructureNode.mk "a" []]).Update
        ["a", "", "x"]).Name
      = (StructureNode.mk "r" [StructureNode.mk "a" [], StructureNode.mk "a" []]).Name :=
  ⟨by rw [Update_eq_insertSegs]; rfl,
   (Update_frame (StructureNode.mk "r" [StructureNode.mk "a" [], StructureNode.mk "a" []])
      ["a", "", "x"] "a" ["x"] (by decide)).1⟩

/-! ## Requests: hostname and path -/

/-- C14. Slash absorption in `Tree.Update`: the call with hostname `h` and path
`p` is the root `Update` of `h` followed by `strings.Split(p, "/")`; hence, for
a fixed hostname, two paths with the same sequence of non-empty components
between slashes give identical trees from the same starting tree. -/
theorem Tree_Update_slash_absorption (t : Tree) (h p1 p2 : String)
    (hsame : (Split p1).filter (fun p => decide (p ≠ ""))
      = (Split p2).filter (fun p => decide (p ≠ ""))) :
    t.Update ⟨h, p1⟩ = t.Update ⟨h, p2⟩ ∧
    t.Update ⟨h, p1⟩ = ⟨t.root.Update (h :: Split p1)⟩ := by
  refine ⟨?_, rfl⟩
  show Tree.mk (t.root.Update ([h] ++ Split p1)) = Tree.mk (t.root.Update ([h] ++ Split p2))
  rw [Update_eq_insertSegs ([h] ++ Split p1), Update_eq_insertSegs ([h] ++ Split p2),
    List.filter_append, List.filter_append, hsame]

/-- Witness of C14: the paths `/x/y` and `//x//y/` under the host `a.com`. -/
theorem Tree_Update_slash_absorption_witness :
    Tree.empty.Update ⟨"a.com", "/x/y"⟩ = Tree.empty.Update ⟨"a.com", "//x//y/"⟩ ∧
    Tree.empty.Update ⟨"a.com", "/x/y"⟩ = ⟨Tree.empty.root.Update ("a.com" :: Split "/x/y")⟩ :=
  Tree_Update_slash_absorption Tree.empty "a.com" "/x/y" "//x//y/" (by decide)

/-- C19. Empty hostname: with the empty string as hostname, when the path has
a non-empty component, `Tree.Update` on a fresh `Tree` makes the first
non-empty path component the name of the single top-level node of
`Structure()` (the other components chained below it); when the path has no
non-empty component either, `Tree.Update` leaves any tree unchanged. -/
theorem Tree_Update_empty_hostname (p : String) :
    (∀ seg rest, (Split p).filter (fun q => decide (q ≠ "")) = seg :: rest →
      (Tree.empty.Update ⟨"", p⟩).Structure = [StructureNode.mk seg (chain rest)]) ∧
    ((Split p).filter (fun q => decide (q ≠ "")) = [] →
      ∀ t : Tree, t.Update ⟨"", p⟩ = t) := by
  have hfilter : ([""] ++ Split p).filter (fun q => decide (q ≠ ""))
      = (Split p).filter (fun q => decide (q ≠ "")) := by
    rw [List.filter_append]
    rfl
  constructor
  · intro seg rest hf
    show (Tree.empty.root.Update ([""] ++ Split p)).Children = _
    rw [Update_eq_insertSegs, hfilter, hf]
    show (insertSegs (seg :: rest) (StructureNode.mk "" [])).Children = _
    rw [insertSegs_leaf]
    rfl
  · intro hf t
    show Tree.mk (t.root.Update ([""] ++ Split p)) = t
    rw [Update_eq_insertSegs, hfilter, hf]
    rfl

/-- Witness of C19: the path `/x/y` without a hostname puts `x` at the top. -/
theorem Tree_Update_empty_hostname_witness :
    (Tree.empty.Update ⟨"", "/x/y"⟩).Structure
      = [StructureNode.mk "x" [StructureNode.mk "y" []]] :=
  (Tree_Update_empty_hostname "/x/y").1 "x" ["y"] (by decide)

/-! ## The top-level order over a history -/

theorem Update_childNames_step (t : StructureNode) (parts : List String) :
    (t.Update parts).childNames =
      match (parts.filter (fun p => decide (p ≠ ""))).head? with
      | none => t.childNames
      | some seg => if seg ∈ t.childNames then t.childNames else t.childNames ++ [seg] := by
  rw [Update_eq_insertSegs]
  exact insertSegs_childNames _ t

theorem foldl_updateRoot_childNames (history : List (List String)) (t0 : Tree) :
    (history.foldl Tree.updateRoot t0).root.childNames
      = t0.root.childNames ++
        (dedupFirst (firstSegments history)).filter (fun x => decide (x ∉ t0.root.childNames)) := by
  induction history generalizing t0 with
  | nil => simp [firstSegments, dedupFirst]
  | cons parts hs ih =>
    rw [List.foldl_cons, ih (t0.updateRoot parts)]
    have hstep := Update_childNames_step t0.root parts
    show (t0.root.Update parts).childNames ++
        (dedupFirst (firstSegments hs)).filter
          (fun x => decide (x ∉ (t0.root.Update parts).childNames)) = _
    cases hhead : (parts.filter (fun p => decide (p ≠ ""))).head? with
    | none =>
      rw [hhead] at hstep
      have hstep2 : (t0.root.Update parts).childNames = t0.root.childNames := hstep
      have hfs : firstSegments (parts :: hs) = firstSegments hs := by
        simp only [firstSegments, List.filterMap_cons, hhead]
      rw [hfs, hstep2]
    | some seg =>
      rw [hhead] at hstep
      have hstep2 : (t0.root.Update parts).childNames
          = if seg ∈ t0.root.childNames then t0.root.childNames
            else t0.root.childNames ++ [seg] := hstep
      have hfs : firstSegments (parts :: hs) = seg :: firstSegments hs := by
        simp only [firstSegments, List.filterMap_cons, hhead]
      rw [hfs, dedupFirst]
      by_cases hmem : seg ∈ t0.root.childNames
      · rw [hstep2, if_pos hmem, List.filter_cons_of_neg (by simpa using hmem),
          List.filter_filter]
        congr 1
        apply List.filter_congr
        intro x _
        by_cases hx : x ∈ t0.root.childNames
        · simp [hx]
        · have hne : x ≠ seg := fun h => hx (h ▸ hmem)
          simp [hx, hne]
      · rw [hstep2, if_neg hmem, List.filter_cons_of_pos (by simpa using hmem),
          List.filter_filter, List.append_assoc, List.singleton_append]
        congr 2
        apply List.filter_congr
        intro x _
        by_cases hx : x ∈ t0.root.childNames
        · simp [hx]
        · by_cases hne : x = seg
          · simp [hne]
          · simp [hx, hne]

/-- C17. Top-level order is first-insertion order over a whole history: for the
tree built from an empty `Tree` by root `Update` calls with `p1..pn`, the names
of the nodes of `Structure()`, in order, are the first non-empty segments of the
`pi` that have one, with later duplicates removed and first occurrences kept. -/
theorem Structure_names_first_insertion (history : List (List String)) :
    (Tree.build history).Structure.map StructureNode.Name
      = dedupFirst (firstSegments history) := by
  have h := foldl_updateRoot_childNames history Tree.empty
  have h0 : Tree.empty.root.childNames = [] := rfl
  rw [h0] at h
  simpa using h

/-! ## Exact content of the tree -/

theorem walk_isSome_of_append (t : StructureNode) (q r : List String)
    (h : (walk t (q ++ r)).isSome = true) : (walk t q).isSome = true := by
  rw [walk_append] at h
  cases hq : walk t q with
  | none => rw [hq] at h; simp at h
  | some n => rfl

theorem walk_leaf (name : String) (q : List String)
    (h : (walk (StructureNode.mk name []) q).isSome = true) : q = [] := by
  cases q with
  | nil => rfl
  | cons s q => simp [walk_cons] at h

/-- What can be walked after an insertion could be walked before it, or is a
prefix of the inserted sequence. -/
theorem walk_insertSegs_inv (f q : List String) (t : StructureNode)
    (h : (walk (insertSegs f t) q).isSome = true) :
    (walk t q).isSome = true ∨ q <+: f := by
  induction f generalizing t q with
  | nil => exact Or.inl h
  | cons seg rest ih =>
    cases q with
    | nil => exact Or.inl (by simp)
    | cons s q =>
      rcases insertSegs_cons_cases seg rest t with ⟨pre, c, post, hcs, hpre, hc, he⟩ | ⟨hfresh, he⟩
      · rw [he, walk_cons, Children_mk] at h
        by_cases hs : s = seg
        · subst hs
          rw [find_of_split s pre (insertSegs rest c) post hpre
            (by rw [insertSegs_Name, hc])] at h
          rcases ih q c h with h1 | h1
          · left
            rw [walk_cons, hcs, find_of_split s pre c post hpre hc]
            exact h1
          · right
            exact (List.prefix_cons_inj s).2 h1
        · have hcs2 : c.Name ≠ s := by rw [hc]; exact fun h2 => hs h2.symm
          rw [find_split_other s pre post c (insertSegs rest c) hcs2
            (by rw [insertSegs_Name]; exact hcs2), ← hcs] at h
          left
          rw [walk_cons]
          exact h
      · rw [he, walk_cons, Children_mk, List.find?_append] at h
        cases hfind : t.Children.find? (fun x => decide (x.Name = s)) with
        | some d =>
          rw [hfind] at h
          left
          rw [walk_cons, hfind]
          exact h
        | none =>
          rw [hfind, Option.none_or] at h
          by_cases hs : s = seg
          · subst hs
            rw [List.find?_cons_of_pos _ (by simp [insertSegs_Name])] at h
            have h2 : (walk (insertSegs rest (StructureNode.mk s [])) q).isSome = true := h
            right
            rcases ih q _ h2 with h1 | h1
            · rw [walk_leaf s q h1]
              exact List.prefix_iff_eq_append.2 (by simp)
            · exact (List.prefix_cons_inj s).2 h1
          · rw [List.find?_cons_of_neg _ (by
              simp only [insertSegs_Name, Name_mk, decide_eq_true_eq]
              exact fun h2 => hs h2.symm)] at h
            simp at h

/-- C18. Exact content of the tree: for the tree built from an empty `Tree` by
root `Update` calls with `p1..pn`, a non-empty sequence of strings can be
walked by child name from the root if and only if it is a prefix of the
sequence of non-empty segments of some `pi`. -/
theorem walk_iff_prefix_of_inserted (history : List (List String)) (q : List String)
    (hq : q ≠ []) :
    (walk (Tree.build history).root q).isSome = true ↔
      ∃ parts ∈ history, q <+: parts.filter (fun p => decide (p ≠ "")) := by
  induction history using List.reverseRecOn with
  | nil =>
    constructor
    · intro h
      exact absurd (walk_leaf "" q h) hq
    · rintro ⟨parts, hmem, _⟩
      simp at hmem
  | append_singleton history parts ih =>
    rw [Tree.build_snoc]
    show (walk ((Tree.build history).root.Update parts) q).isSome = true ↔ _
    rw [Update_eq_insertSegs]
    constructor
    · intro h
      rcases walk_insertSegs_inv _ q _ h with h1 | h1
      · obtain ⟨p0, hp0, hpre⟩ := ih.1 h1
        exact ⟨p0, List.mem_append_left _ hp0, hpre⟩
      · exact ⟨parts, by simp, h1⟩
    · rintro ⟨p0, hp0, hpre⟩
      rcases List.mem_append.1 hp0 with hmem | hmem
      · have h1 := ih.2 ⟨p0, hmem, hpre⟩
        obtain ⟨n, hn⟩ := Option.isSome_iff_exists.1 h1
        obtain ⟨g, hg⟩ := walk_insertSegs_mono q (parts.filter (fun p => decide (p ≠ "")))
          (Tree.build history).root n hn
        rw [hg]
        rfl
      · have hp : p0 = parts := by simpa using hmem
        subst hp
        obtain ⟨r, hr⟩ := hpre
        obtain ⟨n, hn⟩ := walk_insertSegs_self (p0.filter (fun p => decide (p ≠ "")))
          (Tree.build history).root
        apply walk_isSome_of_append _ q r
        rw [hr, hn]
        rfl

/-- Witness of C18: after `a.com/x/y` and `b.org`, the sequence `a.com, x` can be
walked, being a prefix of the first inserted sequence. -/
theorem walk_iff_prefix_of_inserted_witness :
    (walk (Tree.build [["a.com", "", "x", "y"], ["b.org"]]).root ["a.com", "x"]).isSome = true ↔
      ∃ parts ∈ [["a.com", "", "x", "y"], ["b.org"]],
        ["a.com", "x"] <+: parts.filter (fun p => decide (p ≠ "")) :=
  walk_iff_prefix_of_inserted [["a.com", "", "x", "y"], ["b.org"]] ["a.com", "x"] (by decide)

/-! ## Insertion never fails -/

theorem indexAt_cons_zero {α : Type} (a : α) (l : List α) : indexAt (a :: l) 0 = .ok a := by
  simp [indexAt]

theorem sliceFrom1_cons {α : Type} (a : α) (l : List α) : sliceFrom1 (a :: l) = .ok l := by
  simp [sliceFrom1]

theorem indexAt_append_length {α : Type} (done todo : List α) (a : α) :
    indexAt (done ++ a :: todo) done.length = .ok a := by
  have h : (done ++ a :: todo)[done.length]? = some a := by
    rw [List.getElem?_append_right (le_refl _)]
    simp
  simp only [indexAt, h]

theorem scanChecked_eq (upd : StructureNode → List String → Except Fault StructureNode)
    (g : StructureNode → StructureNode) (seg : String) (rest : List String)
    (hupd : ∀ c, upd c rest = .ok (g c)) (todo done : List StructureNode) :
    scanChecked upd (seg :: rest) (done ++ todo) done.length todo
      = .ok ((updateFirst g seg todo).map (fun l => done ++ l)) := by
  induction todo generalizing done with
  | nil => rfl
  | cons node todo ih =>
    rw [scanChecked, updateFirst]
    rw [indexAt_cons_zero]
    show (if node.Name = seg then _ else _) = _
    by_cases hn : node.Name = seg
    · rw [if_pos hn, if_pos hn]
      rw [sliceFrom1_cons]
      show (indexAt (done ++ node :: todo) done.length).bind _ = _
      rw [indexAt_append_length]
      show (upd node rest).bind _ = _
      rw [hupd node]
      show Except.ok (some ((done ++ node :: todo).set done.length (g node))) = _
      simp
    · rw [if_neg hn, if_neg hn]
      have hih := ih (done ++ [node])
      rw [List.append_assoc, List.singleton_append, List.length_append, List.length_singleton]
        at hih
      rw [hih, Option.map_map]
      congr 2
      funext l
      simp

/-- With more fuel than `parts` has elements, the checked run returns the
result of `Update` and signals no fault. -/
theorem UpdateChecked_eq (fuel : Nat) (t : StructureNode) (parts : List String)
    (h : parts.length < fuel) : UpdateChecked fuel t parts = .ok (t.Update parts) := by
  induction fuel generalizing t parts with
  | zero => omega
  | succ fuel ih =>
    rw [UpdateChecked, Update_eq_insertSegs]
    have hf := filterParts_eq_filter parts
    cases hfp : filterParts parts with
    | nil =>
      rw [← hf, hfp]
      rfl
    | cons seg rest =>
      have hlt := filterParts_tail_length_lt parts seg rest hfp
      have hrest : rest.filter (fun p => decide (p ≠ "")) = rest :=
        filter_tail_fixed seg rest parts (by rw [← hf]; exact hfp)
      have hupd : ∀ c, UpdateChecked fuel c rest = .ok (insertSegs rest c) := by
        intro c
        rw [ih c rest (by omega), Update_of_filtered rest hrest]
      have hscan := scanChecked_eq (UpdateChecked fuel) (insertSegs rest) seg rest hupd
        t.Children []
      simp only [List.nil_append, List.length_nil] at hscan
      rw [← hf, hfp, if_neg (by simp), hscan, insertSegs]
      cases updateFirst (insertSegs rest) seg t.Children with
      | some children => rfl
      | none =>
        show (indexAt (seg :: rest) 0).bind _ = _
        rw [indexAt_cons_zero]
        show (sliceFrom1 (seg :: rest)).bind _ = _
        rw [sliceFrom1_cons]
        show (UpdateChecked fuel (StructureNode.mk seg []) rest).bind _ = _
        rw [hupd]
        rfl

/-- C12. Insertion never fails: for every node and every finite sequence of
strings, `Update` returns (it is a total function), and its run with every
access checked (`filtered[0]`, `filtered[1:]`, `t.Children[i]`) signals no
out-of-range access and returns the same node as soon as the recursion budget
exceeds the length of the sequence; each recursive call is on a strictly
shorter sequence. -/
theorem Update_never_fails (t : StructureNode) (parts : List String) :
    (∀ fuel, parts.length < fuel → UpdateChecked fuel t parts = .ok (t.Update parts)) ∧
    (∀ seg rest, filterParts parts = seg :: rest → rest.length < parts.length) :=
  ⟨fun fuel h => UpdateChecked_eq fuel t parts h,
   fun seg rest h => filterParts_tail_length_lt parts seg rest h⟩

/-- Witness of C12 on a single-segment sequence with empty strings around it. -/
theorem Update_never_fails_witness :
    UpdateChecked 4 (StructureNode.mk "" [StructureNode.mk "a.com" []]) ["", "a.com", ""]
      = .ok ((StructureNode.mk "" [StructureNode.mk "a.com" []]).Update ["", "a.com", ""]) :=
  (Update_never_fails (StructureNode.mk "" [StructureNode.mk "a.com" []]) ["", "a.com", ""]).1 4
    (by decide)

/-! ## Serialization of a node -/

mutual
theorem depth_specSerialize :
    (t : StructureNode) → (specSerialize t).depth = 2 * t.height
  | .mk name children => by
    rw [specSerialize, JSON.depth, depthFields, depthFields, depthFields, JSON.depth,
      JSON.depth, depthElems_specSerializeList children, StructureNode.height]
    simp
    omega
theorem depthElems_specSerializeList :
    (l : List StructureNode) → depthElems (specSerializeList l) = 2 * heightList l
  | [] => by rw [specSerializeList, depthElems, heightList]
  | n :: l => by
    rw [specSerializeList, depthElems, heightList, depth_specSerialize n,
      depthElems_specSerializeList l]
    omega
end

theorem content_Children (t : StoredNode) : t.content.Children = contentSlice t.Children := by
  cases t with
  | mk name children => rw [StoredNode.content]; rfl

theorem content_Name (t : StoredNode) : t.content.Name = t.Name := by
  cases t with
  | mk name children => rw [StoredNode.content]; rfl

theorem specSerialize_eq (t : StructureNode) :
    specSerialize t = JSON.obj [("Children", JSON.arr (specSerializeList t.Children)),
      ("Name", JSON.str t.Name)] := by
  cases t with
  | mk name children => rw [specSerialize]; rfl

mutual
theorem MarshalJSON_eq :
    (t : StoredNode) → t.MarshalJSON =
      if 2 * heightList t.content.Children ≤ maxNestingDepth
      then .ok (specSerialize t.content) else .error .exceededMaxDepth
  | .mk name none => by
    rw [StoredNode.MarshalJSON, StoredNode.Children, StoredNode.Name, fixNil, marshalSlice,
      marshalElems, StoredNode.content, contentSlice, specSerialize, specSerializeList]
    simp [Except.bind, heightList]
  | .mk name (some l) => by
    rw [StoredNode.MarshalJSON, StoredNode.Children, StoredNode.Name, fixNil, marshalSlice,
      StoredNode.content, contentSlice, specSerialize, marshalElems_eq l]
    by_cases h : 2 * heightList (contentList l) ≤ maxNestingDepth
    · simp [Except.bind, h]
    · simp [Except.bind, h]
theorem marshalElems_eq :
    (l : List StoredNode) → marshalElems l =
      if 2 * heightList (contentList l) ≤ maxNestingDepth
      then .ok (specSerializeList (contentList l)) else .error .exceededMaxDepth
  | [] => by
    rw [marshalElems, contentList, specSerializeList, heightList]
    simp
  | n :: l => by
    rw [marshalElems, contentList, specSerializeList, heightList, MarshalJSON_eq n,
      marshalElems_eq l]
    have hd := depth_specSerialize n.content
    have hh : n.content.height = 1 + heightList n.content.Children := by
      cases n.content with
      | mk name children => rw [StructureNode.height]; rfl
    by_cases h1 : 2 * heightList n.content.Children ≤ maxNestingDepth
    · rw [if_pos h1]
      show (compact (specSerialize n.content)).bind _ = _
      rw [compact, hd]
      by_cases h2 : 2 * n.content.height ≤ maxNestingDepth
      · rw [if_pos h2]
        by_cases h3 : 2 * heightList (contentList l) ≤ maxNestingDepth
        · have hR : 2 * max n.content.height (heightList (contentList l)) ≤ maxNestingDepth := by
            omega
          rw [if_pos h3, if_pos hR]
          rfl
        · have hR : ¬ 2 * max n.content.height (heightList (contentList l))
              ≤ maxNestingDepth := by omega
          rw [if_neg h3, if_neg hR]
          rfl
      · have hR : ¬ 2 * max n.content.height (heightList (contentList l))
            ≤ maxNestingDepth := by omega
        rw [if_neg h2, if_neg hR]
        rfl
    · have hR : ¬ 2 * max n.content.height (heightList (contentList l))
          ≤ maxNestingDepth := by omega
      rw [if_neg h1, if_neg hR]
      rfl
end

theorem height_content_deepChain (n : Nat) : (deepChain n).content.height = n + 1 := by
  induction n with
  | zero =>
    rw [deepChain, StoredNode.content, contentSlice, StructureNode.height, heightList]
  | succ n ih =>
    rw [deepChain, StoredNode.content, contentSlice, contentList, contentList,
      StructureNode.height, heightList, heightList, ih]
    omega

/-- Counterexample to C11 as stated: on a node with a chain of `5001` nodes
below it (what one `Update` builds from a hostname and `5001` path segments),
`MarshalJSON` yields no object: the output of the child nests `10002` brackets,
above the limit of `encoding/json`, and the result is the error
`exceeded max depth`. -/
theorem MarshalJSON_deep_chain_error :
    (deepChain 5001).MarshalJSON = .error .exceededMaxDepth := by
  have h : heightList (deepChain 5001).content.Children = 5001 := by
    have h1 := height_content_deepChain 5000
    show heightList (StoredNode.mk "s" (some [deepChain 5000])).content.Children = 5001
    rw [StoredNode.content, contentSlice, contentList, contentList]
    show heightList [(deepChain 5000).content] = 5001
    rw [heightList, heightList, h1]
    rfl
  rw [MarshalJSON_eq, h, if_neg (by decide)]

/-- C11, amended. `MarshalJSON` returns the error `exceeded max depth` when
some child of the node has more than `5000` levels (its output would nest more
than the `10000` brackets `encoding/json` accepts) and otherwise yields the
object with exactly the two fields `Name` and `Children`, where `Children` is the
array of the serializations of the children, of the same shape recursively; a
node without children, its `Children` slice being nil or empty, always
serializes `Children` as the empty array, not as `null`. -/
theorem MarshalJSON_leaf_empty_array (t : StoredNode) :
    (t.MarshalJSON =
      if 2 * heightList t.content.Children ≤ maxNestingDepth
      then .ok (JSON.obj [("Children", JSON.arr (specSerializeList t.content.Children)),
        ("Name", JSON.str t.Name)])
      else .error .exceededMaxDepth) ∧
    (2 * heightList t.content.Children ≤ maxNestingDepth →
      t.MarshalJSON = .ok (specSerialize t.content)) ∧
    ((t.Children = none ∨ t.Children = some []) →
      t.MarshalJSON = .ok (JSON.obj [("Children", JSON.arr []), ("Name", JSON.str t.Name)])) := by
  have h1 := MarshalJSON_eq t
  have h2 : specSerialize t.content
      = JSON.obj [("Children", JSON.arr (specSerializeList t.content.Children)),
        ("Name", JSON.str t.Name)] := by
    rw [specSerialize_eq, content_Name]
  refine ⟨by rw [h1, h2], fun h => by rw [h1, if_pos h], ?_⟩
  intro hleaf
  have hc : t.content.Children = [] := by
    rw [content_Children]
    rcases hleaf with h | h
    · rw [h, contentSlice]
    · rw [h, contentSlice, contentList]
  rw [h1, h2, hc, heightList, specSerializeList, if_pos (by decide)]

/-- Witness of C11: a node with one child whose `Children` slice was never
initialised, and that child on its own. -/
theorem MarshalJSON_leaf_empty_array_witness :
    (StoredNode.mk "x" (some [StoredNode.mk "y" none])).MarshalJSON
      = .ok (JSON.obj [("Children",
          JSON.arr [JSON.obj [("Children", JSON.arr []), ("Name", JSON.str "y")]]),
        ("Name", JSON.str "x")]) ∧
    (StoredNode.mk "y" none).MarshalJSON
      = .ok (JSON.obj [("Children", JSON.arr []), ("Name", JSON.str "y")]) :=
  ⟨(MarshalJSON_leaf_empty_array (StoredNode.mk "x" (some [StoredNode.mk "y" none]))).2.1
      (by decide),
   (MarshalJSON_leaf_empty_array (StoredNode.mk "y" none)).2.2 (Or.inl rfl)⟩

end Workspace
